import Mathlib

/-!
# Verification of the mdtable2png block-extraction engine

A shallow embedding of the document-to-block extraction and classification
engine (`src/infrastructure/remarkParser.ts`), the manifest codec
(`src/infrastructure/manifestBuilder.ts`, `src/core/entities/BlockData.ts`)
and the filename generator, together with proofs of the specification's
testable properties.

Modelling conventions:
* JavaScript strings are Lean `String`s (lists of unicode characters);
  the sources never index into surrogate pairs, so this is faithful.
* JavaScript `undefined` for an optional field is `Option.none`; an
  optional string field is truthy exactly when it is `some s` with `s ≠ ""`.
* The regular expressions of the source are compiled by hand into
  decidable character-list matchers, with backtracking made explicit as
  existential choice where the pattern is ambiguous.
* The external Markdown parser (remark) is out of scope; the engine
  receives an already parsed mdast tree.  The nested re-parse performed by
  the fenced-table classifier is abstracted as an explicit
  string-to-tree argument.
* The floating-point comparison `valid / parts >= 0.8` is modelled as the
  exact rational comparison `4 * parts ≤ 5 * valid`; the two agree for all
  realizable piece counts.
-/

/-! ## JavaScript string primitives -/

/-- The character class `\s` of JavaScript regular expressions, which is
also the set trimmed by `String.prototype.trim`: tab, line terminators,
space, NBSP, BOM and the Unicode space separators. -/
def isJsWs (c : Char) : Bool :=
  c.toNat = 9 || c.toNat = 10 || c.toNat = 11 || c.toNat = 12 ||
  c.toNat = 13 || c.toNat = 32 || c.toNat = 160 || c.toNat = 0x1680 ||
  (0x2000 ≤ c.toNat && c.toNat ≤ 0x200a) || c.toNat = 0x2028 ||
  c.toNat = 0x2029 || c.toNat = 0x202f || c.toNat = 0x205f ||
  c.toNat = 0x3000 || c.toNat = 0xfeff

/-- `String.prototype.trim` on a character list: drop `\s` characters from
both ends. -/
def jsTrimList (l : List Char) : List Char :=
  ((l.dropWhile isJsWs).reverse.dropWhile isJsWs).reverse

/-- `String.prototype.trim`. -/
def jsTrim (s : String) : String :=
  String.mk (jsTrimList s.data)

/-- `value.split("\n")` on a character list.  Always returns a non-empty
list of pieces; a trailing separator yields a trailing empty piece, as in
JavaScript. -/
def splitNlChars : List Char → List (List Char)
  | [] => [[]]
  | c :: cs =>
    let r := splitNlChars cs
    if c = '\n' then [] :: r
    else
      match r with
      | [] => [[c]]
      | p :: ps => (c :: p) :: ps

/-- `value.split("\n")`. -/
def splitNl (s : String) : List String :=
  (splitNlChars s.data).map String.mk

/-- `lines.join("\n")` on character lists (inverse of `splitNlChars`). -/
def joinNl : List (List Char) → List Char
  | [] => []
  | [l] => l
  | l :: ls => l ++ '\n' :: joinNl ls

/-- `lines.join("\n")`. -/
def joinNlStr (ls : List String) : String :=
  String.mk (joinNl (ls.map String.data))

/-- One piece of `str.split(/\s+/)` machinery: maximal runs of non-`\s`
characters, in order.  Used for the score codec's
`split(/\s+/).filter((s) => s.length > 0)`, whose result is exactly the
list of non-empty whitespace-free words. -/
def wsWords : List Char → List (List Char)
  | [] => []
  | c :: cs =>
    if isJsWs c then wsWords cs
    else
      match wsWords cs with
      | [] => [[c]]
      | w :: ws =>
        match cs with
        | [] => [[c]]
        | d :: _ => if isJsWs d then [c] :: w :: ws else (c :: w) :: ws

/-- `String.split(/\s+/).filter((s) => s.length > 0)`. -/
def jsSplitWsNonEmpty (s : String) : List String :=
  (wsWords s.data).map String.mk

/-! ## Splitting on separator alternations

The tokenizers split on regular expressions of shape
`\s*(?:sep1|sep2|...)\s*`.  None of the separator tokens begins with a
whitespace character, so the leading greedy `\s*` never needs to
backtrack: a match starts at position `i` exactly when the maximal
whitespace run from `i` is followed by one of the separator tokens
(first alternative wins), and the match then greedily extends over
trailing whitespace. -/

/-- Try the separator alternation at the head of `cs`: first token of
`seps` that is a prefix wins, returning the remainder. -/
def matchAlt (seps : List (List Char)) (cs : List Char) : Option (List Char) :=
  match seps with
  | [] => none
  | t :: ts => if t.isPrefixOf cs then some (cs.drop t.length) else matchAlt ts cs

/-- Match `\s*(?:alt)\s*` at the head of `cs`, returning the remainder. -/
def matchSepAt (seps : List (List Char)) (cs : List Char) : Option (List Char) :=
  match matchAlt seps (cs.dropWhile isJsWs) with
  | none => none
  | some rest => some (rest.dropWhile isJsWs)

/-- Worker for `split` on a separator regex: scans left to right,
cutting a piece at each leftmost separator match.  `fuel` bounds the
recursion (any value ≥ the list length is enough, since a separator
match consumes at least one character). -/
def jsSplitGo (seps : List (List Char)) : Nat → List Char → List Char → List (List Char)
  | 0, _, acc => [acc.reverse]
  | _ + 1, [], acc => [acc.reverse]
  | fuel + 1, c :: cs, acc =>
    match matchSepAt seps (c :: cs) with
    | some rest => acc.reverse :: jsSplitGo seps fuel rest []
    | none => jsSplitGo seps fuel cs (c :: acc)

/-- `String.prototype.split` with a `\s*(?:...)\s*` separator regex. -/
def jsSplitSep (seps : List (List Char)) (s : String) : List String :=
  (jsSplitGo seps (s.data.length + 1) s.data []).map String.mk

/-- The alternation of `/\s*(?:→|->|–|—|\|)\s*/` (chord-progression
splitter).  The plain hyphen is *not* a separator here; only `->`. -/
def chordSeps : List (List Char) := [['→'], ['-', '>'], ['–'], ['—'], ['|']]

/-- The alternation of `/\s*[-–—]\s*/` (degree-progression splitter). -/
def degreeSeps : List (List Char) := [['-'], ['–'], ['—']]

/-- The alternation of `ARROW_SEPARATOR = /\s*(?:→|->)\s*/` used by the
heuristic detector. -/
def arrowSeps : List (List Char) := [['→'], ['-', '>']]

/-! ## The chord-name and note-name grammars -/

/-- Root letters `[A-G]`. -/
def isChordRoot (c : Char) : Bool :=
  c = 'A' || c = 'B' || c = 'C' || c = 'D' || c = 'E' || c = 'F' || c = 'G'

/-- Accidentals `[#♯b♭]`. -/
def isAccidental (c : Char) : Bool :=
  c = '#' || c = '♯' || c = 'b' || c = '♭'

/-- The quality/extension alternatives of
`(m|maj|min|dim|aug|sus|add|M|7|9|11|13|6)*`. -/
def chordQualTokens : List (List Char) :=
  [['m'], ['m', 'a', 'j'], ['m', 'i', 'n'], ['d', 'i', 'm'], ['a', 'u', 'g'],
   ['s', 'u', 's'], ['a', 'd', 'd'], ['M'], ['7'], ['9'], ['1', '1'],
   ['1', '3'], ['6']]

/-- Match `(\([^)]*\))?` at the head: a parenthetical consumes through the
first closing parenthesis; an unclosed `(` can match neither the group nor
what follows it, so it is a dead end. -/
def stripParen : List Char → Option (List Char)
  | '(' :: rest =>
    match rest.dropWhile (fun c => !(c = ')')) with
    | [] => none
    | _ :: after => some after
  | cs => some cs

/-- Match `(\/[A-G][#♯b♭]?)?$`. -/
def slashBassEnd : List Char → Bool
  | [] => true
  | '/' :: r :: rest =>
    isChordRoot r &&
      (match rest with
       | [] => true
       | [a] => isAccidental a
       | _ => false)
  | _ => false

/-- Match `(\([^)]*\))?(\/[A-G][#♯b♭]?)?$`. -/
def chordTailEnd (cs : List Char) : Bool :=
  match stripParen cs with
  | none => false
  | some cs2 => slashBassEnd cs2

/-- Match `(quality-tokens)*(\([^)]*\))?(\/[A-G][#♯b♭]?)?$` with full
backtracking over the token star (a string is accepted exactly when some
decomposition exists, which is what the JavaScript engine computes).
Each token consumes at least one character, so `fuel = cs.length`
suffices. -/
def chordQualsEnd : Nat → List Char → Bool
  | 0, cs => chordTailEnd cs
  | fuel + 1, cs =>
    chordTailEnd cs ||
      chordQualTokens.any (fun t =>
        t.isPrefixOf cs && chordQualsEnd fuel (cs.drop t.length))

/-- `CHORD_PATTERN.test`, the chord-name grammar
`^[A-G][#♯b♭]?(m|maj|min|dim|aug|sus|add|M|7|9|11|13|6)*(\([^)]*\))?(\/[A-G][#♯b♭]?)?$`. -/
def chordPatternTest (s : String) : Bool :=
  match s.data with
  | [] => false
  | r :: rest =>
    isChordRoot r &&
      (chordQualsEnd rest.length rest ||
        (match rest with
         | a :: rest2 => isAccidental a && chordQualsEnd rest2.length rest2
         | [] => false))

/-- The solfège syllables of `NOTE_NAME_PATTERN`. -/
def noteSyllables : List (List Char) :=
  [['ド'], ['レ'], ['ミ'], ['フ', 'ァ'], ['ソ'], ['ラ'], ['シ']]

/-- Accidentals `[♭♯#b]` of the note-name grammar. -/
def isNoteAccidental (c : Char) : Bool :=
  c = '♭' || c = '♯' || c = '#' || c = 'b'

/-- `NOTE_NAME_PATTERN.test`, the grammar `^(ド|レ|ミ|ファ|ソ|ラ|シ)[♭♯#b]?$`. -/
def noteNamePatternTest (s : String) : Bool :=
  noteSyllables.any (fun syl =>
    syl.isPrefixOf s.data &&
      (match s.data.drop syl.length with
       | [] => true
       | [a] => isNoteAccidental a
       | _ => false))

/-! ## Data model (`src/core/entities/BlockData.ts`, `TableData.ts`) -/

/-- `BlockType`: the closed set of four recognized tags. -/
inductive BlockType where
  | table
  | prog
  | deg
  | score
deriving DecidableEq, Repr, BEq

/-- The persisted string form of a `BlockType` tag. -/
def BlockType.str : BlockType → String
  | .table => "table"
  | .prog => "prog"
  | .deg => "deg"
  | .score => "score"

/-- `VALID_BLOCK_TYPES = ["prog", "deg", "table", "score"]`. -/
def VALID_BLOCK_TYPES : List BlockType := [.prog, .deg, .table, .score]

/-- `isValidBlockType`-plus-narrowing: the `lang` of a fenced code block,
as a recognized tag. -/
def asBlockType (lang : Option String) : Option BlockType :=
  match lang with
  | some "table" => some .table
  | some "prog" => some .prog
  | some "deg" => some .deg
  | some "score" => some .score
  | _ => none

/-- `SourceLocation`. -/
structure SourceLocation where
  file : String
  startLine : Nat
  endLine : Nat
deriving DecidableEq, Repr

/-- A node position.  The engine reads only `position.start.line` and
`position.end.line`; columns and offsets are never consulted and are
omitted. -/
structure NodePos where
  startLine : Nat
  endLine : Nat
deriving DecidableEq, Repr

/-- An mdast node (`MdastNode` of `remarkParser.ts`): a type tag, an
optional literal value, an optional code-fence language, an optional
position, and children.  Absent `children` and `children: []` are
indistinguishable to the engine, so children are always a list. -/
inductive MdastNode where
  | mk (ntype : String) (value : Option String) (lang : Option String)
      (position : Option NodePos) (children : List MdastNode)

def MdastNode.ntype : MdastNode → String
  | .mk t _ _ _ _ => t

def MdastNode.value : MdastNode → Option String
  | .mk _ v _ _ _ => v

def MdastNode.lang : MdastNode → Option String
  | .mk _ _ l _ _ => l

def MdastNode.position : MdastNode → Option NodePos
  | .mk _ _ _ p _ => p

def MdastNode.children : MdastNode → List MdastNode
  | .mk _ _ _ _ cs => cs

/-- `TableData` (the table-only data model). -/
structure TableData where
  index : Nat
  caption : Option String
  headers : List String
  rows : List (List String)
deriving DecidableEq, Repr

/-- `BlockData`: the tagged union of the four block variants.  Field
layout follows the TypeScript interfaces; a field that an interface does
not declare simply does not exist on that variant. -/
inductive BlockData where
  | table (index : Nat) (title caption : Option String) (headers : List String)
      (rows : List (List String)) (source : Option SourceLocation)
  | prog (index : Nat) (title key : Option String) (chords : List String)
      (note : Option String) (source : Option SourceLocation)
  | deg (index : Nat) (title key : Option String) (degrees : List String)
      (note : Option String) (source : Option SourceLocation)
  | score (index : Nat) (title key : Option String)
      (chords bass : Option (List String)) (note : Option String)
      (source : Option SourceLocation)
deriving DecidableEq, Repr

/-- The `type` discriminant of a block. -/
def BlockData.btype : BlockData → BlockType
  | .table .. => .table
  | .prog .. => .prog
  | .deg .. => .deg
  | .score .. => .score

/-- The `index` field of a block. -/
def BlockData.index : BlockData → Nat
  | .table i _ _ _ _ _ => i
  | .prog i _ _ _ _ _ => i
  | .deg i _ _ _ _ _ => i
  | .score i _ _ _ _ _ _ => i

/-- The `title` field (declared on every variant). -/
def BlockData.title : BlockData → Option String
  | .table _ t _ _ _ _ => t
  | .prog _ t _ _ _ _ => t
  | .deg _ t _ _ _ _ => t
  | .score _ t _ _ _ _ _ => t

/-- The `caption` field; only the table variant declares it
(`"caption" in block` is false elsewhere). -/
def BlockData.caption : BlockData → Option String
  | .table _ _ c _ _ _ => c
  | _ => none

/-- The `key` field; the table variant does not declare it. -/
def BlockData.key : BlockData → Option String
  | .table .. => none
  | .prog _ _ k _ _ _ => k
  | .deg _ _ k _ _ _ => k
  | .score _ _ k _ _ _ _ => k

/-- The `note` field; the table variant does not declare it. -/
def BlockData.note : BlockData → Option String
  | .table .. => none
  | .prog _ _ _ _ n _ => n
  | .deg _ _ _ _ n _ => n
  | .score _ _ _ _ _ n _ => n

/-- The `source` field. -/
def BlockData.source : BlockData → Option SourceLocation
  | .table _ _ _ _ _ s => s
  | .prog _ _ _ _ _ s => s
  | .deg _ _ _ _ _ s => s
  | .score _ _ _ _ _ _ s => s

/-- `ManifestItem`: the flattened persisted shape.  `type` is a plain
string, because a persisted manifest can carry any value there. -/
structure ManifestItem where
  index : Nat
  type : String
  title : Option String := none
  key : Option String := none
  output : String
  source : Option SourceLocation := none
  note : Option String := none
  chords : Option (List String) := none
  degrees : Option (List String) := none
  bass : Option (List String) := none
  headers : Option (List String) := none
  rows : Option (List (List String)) := none
deriving DecidableEq, Repr

/-- `Manifest`. -/
structure Manifest where
  input : String
  generatedAt : String
  items : List ManifestItem
deriving DecidableEq, Repr

/-- Truthiness of a JavaScript optional string: `undefined` and `""` are
falsy, every other string is truthy. -/
def optTruthy : Option String → Bool
  | none => false
  | some s => !(s == "")

/-! ## Header/Body Splitter (`parseBlockContent`) -/

/-- Case-insensitive literal-prefix strip (keyword given in lowercase):
the core of matching `^kw...` under the `i` flag. -/
def stripKeyCI : List Char → List Char → Option (List Char)
  | [], rest => some rest
  | _ :: _, [] => none
  | k :: ks, c :: cs => if c.toLower = k then stripKeyCI ks cs else none

/-- A recognized metadata key of the header grammar. -/
inductive HKey where
  | title
  | key
  | note
deriving DecidableEq, Repr

/-- Match `^(title|key|note):\s*(.*)$` (case-insensitive) against one
(already trimmed, newline-free) line.  The alternation succeeds exactly
when the line starts with one of the three keys followed by a colon; the
captured value is the rest of the line (the caller trims it, which
subsumes the greedy `\s*`). -/
def headerKeyMatch (line : String) : Option (HKey × String) :=
  match stripKeyCI "title:".data line.data with
  | some rest => some (.title, String.mk rest)
  | none =>
    match stripKeyCI "key:".data line.data with
    | some rest => some (.key, String.mk rest)
    | none =>
      match stripKeyCI "note:".data line.data with
      | some rest => some (.note, String.mk rest)
      | none => none

/-- The three collected header fields. -/
structure HeaderFields where
  title : Option String := none
  key : Option String := none
  note : Option String := none
deriving DecidableEq, Repr

/-- `result[normalizedKey] = val` — a plain assignment, so a repeated key
overwrites the earlier value. -/
def HeaderFields.set (acc : HeaderFields) : HKey → String → HeaderFields
  | .title, v => { acc with title := some v }
  | .key, v => { acc with key := some v }
  | .note, v => { acc with note := some v }

/-- The front-matter `while` loop of `parseBlockContent`: consumes header
lines from the top, returns the collected fields and the remaining
(body) lines.  A `---` line is consumed and ends the header; a
non-matching non-blank line ends the header and stays in the body. -/
def headerLoop (acc : HeaderFields) : List String → HeaderFields × List String
  | [] => (acc, [])
  | l :: ls =>
    let line := jsTrim l
    if line = "---" then (acc, ls)
    else
      match headerKeyMatch line with
      | some kv => headerLoop (acc.set kv.1 (jsTrim kv.2)) ls
      | none => if line = "" then headerLoop acc ls else (acc, l :: ls)

/-- `ParsedBlockContent`. -/
structure ParsedBlockContent where
  title : Option String := none
  key : Option String := none
  note : Option String := none
  body : String := ""
deriving DecidableEq, Repr

/-- `parseBlockContent`: split into lines, run the header loop, and join
and trim the remaining lines as the body. -/
def parseBlockContent (value : String) : ParsedBlockContent :=
  let r := headerLoop {} (splitNl value)
  { title := r.1.title, key := r.1.key, note := r.1.note,
    body := jsTrim (joinNlStr r.2) }

/-! ## Sequence tokenizers -/

/-- `parseChordProgression`: split on `\s*(?:→|->|–|—|\|)\s*`, trim,
drop empty pieces. -/
def parseChordProgression (body : String) : List String :=
  ((jsSplitSep chordSeps body).map jsTrim).filter (fun s => decide (0 < s.length))

/-- `parseDegreeProgression`: split on `\s*[-–—]\s*`, trim, drop empty
pieces. -/
def parseDegreeProgression (body : String) : List String :=
  ((jsSplitSep degreeSeps body).map jsTrim).filter (fun s => decide (0 < s.length))

/-- Hold the optional `chords`/`bass` sequences of a score block. -/
structure ScoreContent where
  chords : Option (List String) := none
  bass : Option (List String) := none
deriving DecidableEq, Repr

/-- Match `^kw\s*(.+)$` (case-insensitive) on an already-trimmed line,
where `kw` ends in a colon: returns the whitespace-stripped remainder
when it is non-empty.  (On a right-trimmed line the greedy `\s*` never
backtracks into the capture.) -/
def scoreLabelMatch (kw : String) (line : String) : Option String :=
  match stripKeyCI kw.data line.data with
  | none => none
  | some rest =>
    let g := rest.dropWhile isJsWs
    if g.isEmpty then none else some (String.mk g)

/-- The line loop of `parseScoreContent`: `bass:` lines set the bass
sequence, otherwise `chords:` lines set the chords sequence; a later
matching line overwrites an earlier one. -/
def scoreLoop (acc : ScoreContent) : List String → ScoreContent
  | [] => acc
  | l :: ls =>
    let trimmed := jsTrim l
    match scoreLabelMatch "bass:" trimmed with
    | some g => scoreLoop { acc with bass := some (jsSplitWsNonEmpty g) } ls
    | none =>
      match scoreLabelMatch "chords:" trimmed with
      | some g => scoreLoop { acc with chords := some (jsSplitWsNonEmpty g) } ls
      | none => scoreLoop acc ls

/-- `parseScoreContent`. -/
def parseScoreContent (content : ParsedBlockContent) : ScoreContent :=
  scoreLoop {} (splitNl content.body)

/-! ## Text extraction and tree walking -/

mutual

/-- `extractText`: a node's own literal value if truthy, else the
concatenation of its children's texts. -/
def extractText : MdastNode → String
  | .mk _ v _ _ cs =>
    match v with
    | some s => if s = "" then extractTextList cs else s
    | none => extractTextList cs

def extractTextList : List MdastNode → String
  | [] => ""
  | n :: ns => extractText n ++ extractTextList ns

end

/-- `node.position` to a `SourceLocation` for `filePath`. -/
def sourceFrom (filePath : String) (n : MdastNode) : Option SourceLocation :=
  n.position.map (fun p => ⟨filePath, p.startLine, p.endLine⟩)

/-- The preorder enumeration of `unist-util-visit` below `parent`:
every node in order, paired with the `(parent, index)` context the
visitor callback receives. -/
def allNodesIn (parent : MdastNode) : Nat → List MdastNode →
    List (MdastNode × Option (MdastNode × Nat))
  | _, [] => []
  | i, c@(.mk _ _ _ _ ccs) :: cs =>
    (c, some (parent, i)) :: (allNodesIn c 0 ccs ++ allNodesIn parent (i + 1) cs)

/-- The full `unist-util-visit` enumeration of a tree: the root is
visited first, with a null parent and no index. -/
def allNodes (tree : MdastNode) : List (MdastNode × Option (MdastNode × Nat)) :=
  (tree, none) :: allNodesIn tree 0 tree.children

/-- `visit(tree, t, ...)` for a visitor that only uses the node: the
nodes with type tag `t`, in visit order. -/
def collectByType (t : String) (tree : MdastNode) : List MdastNode :=
  ((allNodes tree).map Prod.fst).filter (fun n => n.ntype = t)

/-- Caption lookup for a table at child position `i` of `parent`: the
extracted text of the immediately preceding sibling when that sibling is
a heading (`index > 0` guards the lookup). -/
def tableCaptionAt (parent : MdastNode) (i : Nat) : Option String :=
  if i = 0 then none
  else
    match parent.children.get? (i - 1) with
    | some prev => if prev.ntype = "heading" then some (extractText prev) else none
    | none => none

/-- Caption from a visit context: a null parent (the root) has no
caption. -/
def tableCaptionFrom : Option (MdastNode × Nat) → Option String
  | some pi => tableCaptionAt pi.1 pi.2
  | none => none

/-- `visit(tree, "table", ...)` with the caption rule applied to each
visited table. -/
def collectTables (tree : MdastNode) : List (MdastNode × Option String) :=
  (allNodes tree).filterMap
    (fun pc => if pc.1.ntype = "table" then some (pc.1, tableCaptionFrom pc.2) else none)

/-- `visit(tree, "paragraph", ...)`: each visited paragraph with its
visitor context. -/
def collectParas (tree : MdastNode) : List (MdastNode × Option (MdastNode × Nat)) :=
  (allNodes tree).filter (fun pc => pc.1.ntype = "paragraph")

/-- Emit one value per element, threading the running occurrence counter:
the engine's `blockIndex++` pattern (each visited region pushes exactly
one block and bumps the counter). -/
def emitFrom {α : Type} : Nat → List (Nat → α) → List α
  | _, [] => []
  | i, f :: fs => f i :: emitFrom (i + 1) fs

/-! ## Table classifier and tagged-block classifier -/

/-- `tableNodeToData`: first row is headers, the rest are data rows; a
region with no rows yields empty headers/rows. -/
def tableNodeToData (node : MdastNode) (index : Nat) (caption : Option String) : TableData :=
  match node.children with
  | [] => ⟨index, caption, [], []⟩
  | headerRow :: dataRows =>
    ⟨index, caption, headerRow.children.map extractText,
      dataRows.map (fun row => row.children.map extractText)⟩

/-- `parseMarkdown`: the table-only extraction pass.  `parseStr` is the
external remark parser (string to mdast tree), out of scope per §6. -/
def parseMarkdown (parseStr : String → MdastNode) (markdown : String) : List TableData :=
  emitFrom 1 ((collectTables (parseStr markdown)).map
    (fun pc => fun i => tableNodeToData pc.1 i pc.2))

/-- `codeNodeToProgData`. -/
def codeNodeToProgData (n : MdastNode) (index : Nat) (filePath : String) : BlockData :=
  let content := parseBlockContent (n.value.getD "")
  .prog index content.title content.key (parseChordProgression content.body)
    content.note (sourceFrom filePath n)

/-- `codeNodeToDegData`. -/
def codeNodeToDegData (n : MdastNode) (index : Nat) (filePath : String) : BlockData :=
  let content := parseBlockContent (n.value.getD "")
  .deg index content.title content.key (parseDegreeProgression content.body)
    content.note (sourceFrom filePath n)

/-- `codeNodeToScoreData`. -/
def codeNodeToScoreData (n : MdastNode) (index : Nat) (filePath : String) : BlockData :=
  let content := parseBlockContent (n.value.getD "")
  let sc := parseScoreContent content
  .score index content.title content.key sc.chords sc.bass content.note
    (sourceFrom filePath n)

/-- `tableNodeToBlockData`: like `tableNodeToData` but as a table block;
`title` mirrors `caption`. -/
def tableNodeToBlockData (n : MdastNode) (index : Nat) (caption : Option String)
    (filePath : String) : BlockData :=
  match n.children with
  | [] => .table index caption caption [] [] (sourceFrom filePath n)
  | headerRow :: dataRows =>
    .table index caption caption (headerRow.children.map extractText)
      (dataRows.map (fun row => row.children.map extractText)) (sourceFrom filePath n)

/-- `parseFencedTableBlock`: re-parse the body as Markdown restricted to
tables; `content.title || firstTable.caption` prefers a truthy explicit
title. -/
def parseFencedTableBlock (parseStr : String → MdastNode) (n : MdastNode) (index : Nat)
    (filePath : String) : BlockData :=
  let content := parseBlockContent (n.value.getD "")
  let src := sourceFrom filePath n
  match parseMarkdown parseStr content.body with
  | firstTable :: _ =>
    let t := if optTruthy content.title then content.title else firstTable.caption
    .table index t t firstTable.headers firstTable.rows src
  | [] => .table index content.title content.title [] [] src

/-! ## Heuristic detector -/

/-- `isChordProgression`: split on the arrow separators; accept when at
least 2 pieces match the chord grammar and the matching pieces are at
least 80% of all pieces.  The floating-point test
`validChords.length / parts.length >= 0.8` is modelled exactly as
`4 * parts.length ≤ 5 * validChords.length`. -/
def isChordProgression (text : String) : Bool :=
  let parts := jsSplitSep arrowSeps text
  if parts.length < 2 then false
  else
    let validChords := parts.filter (fun p => chordPatternTest (jsTrim p))
    decide (2 ≤ validChords.length) &&
      decide (4 * parts.length ≤ 5 * validChords.length)

/-- `isNoteNameProgression`: the analogous rule for the solfège grammar. -/
def isNoteNameProgression (text : String) : Bool :=
  let parts := jsSplitSep arrowSeps text
  if parts.length < 2 then false
  else
    let validNotes := parts.filter (fun p => noteNamePatternTest (jsTrim p))
    decide (2 ≤ validNotes.length) &&
      decide (4 * parts.length ≤ 5 * validNotes.length)

/-- `extractChordsFromText`: the arrow-separated, trimmed pieces that
match the chord grammar, in order. -/
def extractChordsFromText (text : String) : List String :=
  ((jsSplitSep arrowSeps text).map jsTrim).filter chordPatternTest

/-- `extractNoteNamesFromText`. -/
def extractNoteNamesFromText (text : String) : List String :=
  ((jsSplitSep arrowSeps text).map jsTrim).filter noteNamePatternTest

/-- First `strong` child's text, if any (title inference inside a
preceding paragraph). -/
def firstStrongText : List MdastNode → Option String
  | [] => none
  | c :: cs => if c.ntype = "strong" then some (extractText c) else firstStrongText cs

/-- Title candidate from one preceding sibling: a heading's text, or the
first bold run inside a paragraph. -/
def titleFromSibling (n : MdastNode) : Option String :=
  if n.ntype = "heading" then some (extractText n)
  else if n.ntype = "paragraph" then firstStrongText n.children
  else none

/-- The sibling positions scanned by `findPrecedingTitle`:
`currentIndex - 1` down to `currentIndex - 3`, clipped at 0. -/
def precedingPositions (currentIndex : Nat) : List Nat :=
  (List.range 3).filterMap
    (fun k => if k < currentIndex then some (currentIndex - 1 - k) else none)

/-- Scan the given positions, nearest first, for a title candidate. -/
def firstTitleAt (children : List MdastNode) : List Nat → Option String
  | [] => none
  | i :: is =>
    match children.get? i >>= titleFromSibling with
    | some t => some t
    | none => firstTitleAt children is

/-- `findPrecedingTitle`. -/
def findPrecedingTitle (parent : MdastNode) (currentIndex : Nat) : Option String :=
  firstTitleAt parent.children (precedingPositions currentIndex)

/-- First colon (`:` or `：`) split of a character list. -/
def splitAtFirstColon : List Char → Option (List Char × List Char)
  | [] => none
  | c :: cs =>
    if c = ':' || c = '：' then some ([], cs)
    else
      match splitAtFirstColon cs with
      | none => none
      | some pp => some (c :: pp.1, pp.2)

/-- The label-stripping match `^[-*]?\s*[^:：]+[：:]\s*(.+)$` on a
(trimmed, newline-free) line.  The colon of the match is necessarily the
first colon of the line (the `[^:：]+` run cannot cross one); the match
exists exactly when something non-empty follows that colon after
whitespace, and at least one character precedes it beyond an optional
list marker (a line starting with the marker always qualifies, because
the optional `[-*]?` can be skipped and the marker absorbed into
`[^:：]+`). -/
def stripLabelCandidate (t : String) : Option String :=
  match splitAtFirstColon t.data with
  | none => none
  | some pp =>
    let cap := pp.2.dropWhile isJsWs
    if cap.isEmpty then none
    else
      match pp.1 with
      | [] => none
      | c :: rest =>
        if c = '-' || c = '*' then some (String.mk cap)
        else if (List.dropWhile isJsWs (c :: rest)).isEmpty then none
        else some (String.mk cap)

/-- The candidate text of one line: the trimmed line, with a leading
`label:` prefix replaced by the trimmed capture when the label pattern
matches. -/
def detectLineCandidate (line : String) : String :=
  let t0 := jsTrim line
  match stripLabelCandidate t0 with
  | some cap => jsTrim cap
  | none => t0

/-- A detected block before its occurrence index is assigned. -/
inductive PreDetected where
  | prog (title : Option String) (chords : List String) (source : Option SourceLocation)
  | deg (title : Option String) (degrees : List String) (source : Option SourceLocation)
deriving DecidableEq, Repr

/-- Assign the occurrence index to a detected block (heuristic blocks
carry no key and no note). -/
def PreDetected.toBlock : PreDetected → Nat → BlockData
  | .prog t cs s, i => .prog i t none cs none s
  | .deg t ds s, i => .deg i t none ds none s

/-- Process one line of a text child: the chord test fires first (its
`continue` skips the note test), each only when its type is requested. -/
def detectLine (targetTypes : List BlockType) (title : Option String)
    (src : Option SourceLocation) (line : String) : Option PreDetected :=
  let targetText := detectLineCandidate line
  if targetTypes.contains .prog && isChordProgression targetText then
    some (.prog title (extractChordsFromText targetText) src)
  else if targetTypes.contains .deg && isNoteNameProgression targetText then
    some (.deg title (extractNoteNamesFromText targetText) src)
  else none

/-- Process one child of a paragraph: only text children participate; the
whole trimmed text value is discarded when shorter than 5 characters
(`if (!text || text.length < 5) continue`) — this gate runs before line
splitting and label stripping. -/
def detectTextChild (targetTypes : List BlockType) (title : Option String)
    (src : Option SourceLocation) (child : MdastNode) : List PreDetected :=
  if child.ntype = "text" then
    let text := jsTrim (child.value.getD "")
    if text.length < 5 then []
    else (splitNl text).filterMap (detectLine targetTypes title src)
  else []

/-- Process one visited paragraph (with its parent context for title
inference). -/
def detectParagraph (filePath : String) (targetTypes : List BlockType)
    (pc : MdastNode × Option (MdastNode × Nat)) : List PreDetected :=
  let title :=
    match pc.2 with
    | some pi => findPrecedingTitle pi.1 pi.2
    | none => none
  let src := sourceFrom filePath pc.1
  pc.1.children.flatMap (detectTextChild targetTypes title src)

/-- All heuristic detections of one pass, in visit order, before index
assignment. -/
def detectPre (tree : MdastNode) (filePath : String)
    (targetTypes : List BlockType) : List PreDetected :=
  (collectParas tree).flatMap (detectParagraph filePath targetTypes)

/-- `detectPlainTextBlocks`: heuristic blocks continue the running
counter from `startIndex`. -/
def detectPlainTextBlocks (tree : MdastNode) (filePath : String) (startIndex : Nat)
    (targetTypes : List BlockType) : List BlockData :=
  emitFrom startIndex ((detectPre tree filePath targetTypes).map PreDetected.toBlock)

/-! ## The full extraction pass (`parseMarkdownBlocks`) -/

/-- Emission of one visited fenced code block: skipped unless its `lang`
is a recognized tag included in the active filter; otherwise exactly one
block is pushed, dispatched on the tag. -/
def codeEmit (parseStr : String → MdastNode) (filePath : String)
    (targetTypes : List BlockType) (n : MdastNode) : List (Nat → BlockData) :=
  match asBlockType n.lang with
  | none => []
  | some t =>
    if targetTypes.contains t then
      match t with
      | .prog => [fun i => codeNodeToProgData n i filePath]
      | .deg => [fun i => codeNodeToDegData n i filePath]
      | .score => [fun i => codeNodeToScoreData n i filePath]
      | .table => [fun i => parseFencedTableBlock parseStr n i filePath]
    else []

/-- `parseMarkdownBlocks`.  The external remark parse (raw markdown to
tree) is out of scope; the engine receives the tree, and `parseStr`
stands for the parser used by the nested `parseMarkdown` call of the
fenced-table classifier.  One counter numbers all emitted blocks from 1:
first the fenced code blocks in document order, then the generic tables
in document order, then the heuristic detections. -/
def parseMarkdownBlocks (parseStr : String → MdastNode) (tree : MdastNode)
    (filePath : String) (types : Option (List BlockType)) (autoDetect : Bool) :
    List BlockData :=
  let targetTypes := types.getD VALID_BLOCK_TYPES
  let codeEmits := (collectByType "code" tree).flatMap (codeEmit parseStr filePath targetTypes)
  let tableEmits :=
    if targetTypes.contains .table then
      (collectTables tree).map (fun pc => fun i => tableNodeToBlockData pc.1 i pc.2 filePath)
    else []
  let emits := codeEmits ++ tableEmits
  emitFrom 1 emits ++
    (if autoDetect then detectPlainTextBlocks tree filePath (1 + emits.length) targetTypes
     else [])

/-! ## Manifest codec and filename generation (`manifestBuilder.ts`) -/

/-- The forbidden filename characters `[/\\?%*:|"<>]`. -/
def forbiddenFilenameChar (c : Char) : Bool :=
  c = '/' || c = '\\' || c = '?' || c = '%' || c = '*' || c = ':' ||
  c = '|' || c = '"' || c = '<' || c = '>'

/-- `replace(/\s+/g, "-")`: each maximal whitespace run becomes a single
hyphen (`inRun` records whether the previous character was whitespace). -/
def collapseWsRuns : Bool → List Char → List Char
  | _, [] => []
  | inRun, c :: cs =>
    if isJsWs c then
      if inRun then collapseWsRuns true cs else '-' :: collapseWsRuns true cs
    else c :: collapseWsRuns false cs

/-- `sanitizeFilename`: strip the forbidden characters, collapse
whitespace runs to hyphens, truncate to 50 characters, trim. -/
def sanitizeFilename (name : String) : String :=
  jsTrim (String.mk
    ((collapseWsRuns false (name.data.filter (fun c => !forbiddenFilenameChar c))).take 50))

/-- Decimal digits of a natural number, most significant first (`fuel`
bounds the recursion; `n + 1` is always enough). -/
def natDecDigits : Nat → Nat → List Char
  | 0, _ => []
  | fuel + 1, n =>
    if n < 10 then [Char.ofNat (48 + n)]
    else natDecDigits fuel (n / 10) ++ [Char.ofNat (48 + n % 10)]

/-- `String(n)` for a natural index. -/
def natDecRepr (n : Nat) : String := String.mk (natDecDigits (n + 1) n)

/-- `String(index).padStart(2, "0")`. -/
def padStart2 (n : Nat) : String :=
  let s := natDecRepr n
  if s.length < 2 then "0" ++ s else s

/-- The title picked by `generateBlockFilename`: a truthy `title`, else a
truthy `caption`, else the empty string. -/
def blockFilenameTitle (block : BlockData) : String :=
  if optTruthy block.title then block.title.getD ""
  else if optTruthy block.caption then block.caption.getD ""
  else ""

/-- `generateBlockFilename`: type prefix, zero-padded index, and the
sanitized title when it is non-empty. -/
def generateBlockFilename (block : BlockData) : String :=
  let paddedIndex := padStart2 block.index
  let sanitized := sanitizeFilename (blockFilenameTitle block)
  if !(sanitized == "") then
    block.btype.str ++ "-" ++ paddedIndex ++ "-" ++ sanitized ++ ".png"
  else
    block.btype.str ++ "-" ++ paddedIndex ++ ".png"

/-- `blockToManifestItem`: flatten a block into the persisted item shape.
Falsy (absent or empty) optional strings are not stored. -/
def blockToManifestItem (block : BlockData) (filename : String) : ManifestItem :=
  { index := block.index
    type := block.btype.str
    output := filename
    title :=
      if optTruthy block.title then block.title
      else if optTruthy block.caption then block.caption
      else none
    key := if optTruthy block.key then block.key else none
    note := if optTruthy block.note then block.note else none
    source := block.source
    headers :=
      match block with
      | .table _ _ _ hs _ _ => some hs
      | _ => none
    rows :=
      match block with
      | .table _ _ _ _ rs _ => some rs
      | _ => none
    chords :=
      match block with
      | .prog _ _ _ cs _ _ => some cs
      | .score _ _ _ cs _ _ _ => cs
      | _ => none
    degrees :=
      match block with
      | .deg _ _ _ ds _ _ => some ds
      | _ => none
    bass :=
      match block with
      | .score _ _ _ _ bs _ _ => bs
      | _ => none }

/-- The item list of `buildManifest`
(`blocks.map((block, i) => blockToManifestItem(block, filenames[i]))`;
callers always supply one filename per block). -/
def buildItems : List BlockData → List String → List ManifestItem
  | [], _ => []
  | b :: bs, fns => blockToManifestItem b (fns.headD "") :: buildItems bs fns.tail

/-- `buildManifest`.  `new Date().toISOString()` is impure; the
generation timestamp is taken as the `now` argument. -/
def buildManifest (inputPath : String) (blocks : List BlockData)
    (filenames : List String) (now : String) : Manifest :=
  { input := inputPath, generatedAt := now, items := buildItems blocks filenames }

/-- `manifestItemToBlockData`.  The switch has no default case: an item
with an unrecognized `type` falls off the end and the function returns
`undefined`, modelled as `none`. -/
def manifestItemToBlockData (item : ManifestItem) : Option BlockData :=
  if item.type = "table" then
    some (.table item.index item.title item.title (item.headers.getD [])
      (item.rows.getD []) item.source)
  else if item.type = "prog" then
    some (.prog item.index item.title item.key (item.chords.getD [])
      item.note item.source)
  else if item.type = "deg" then
    some (.deg item.index item.title item.key (item.degrees.getD [])
      item.note item.source)
  else if item.type = "score" then
    some (.score item.index item.title item.key item.chords item.bass
      item.note item.source)
  else none

/-- One step of `executeFromManifest` for one item:
`manifestItemToBlockData` followed by `generateBlockFilename`, whose
destructuring `const { type, index } = block` throws a synchronous
`TypeError` when the decode fell through (returned `undefined`). -/
def regenerateItemFilename (item : ManifestItem) : Except String String :=
  match manifestItemToBlockData item with
  | some block => .ok (generateBlockFilename block)
  | none => .error "TypeError: cannot destructure property of undefined"

/-! ## Shared example inputs -/

/-- A stand-in for the external remark parser that yields an empty tree
(used where the nested fenced-table re-parse is not exercised). -/
def trivialParse : String → MdastNode := fun _ => .mk "root" none none none []

/-- A document whose only region is a `prog` fence carrying a `title:`
header line with an empty value. -/
def docEmptyTitle : MdastNode :=
  .mk "root" none none none
    [.mk "code" (some "title:\n---\nDm7") (some "prog") none []]

/-- A document with a generic table (lines 2–3) before a tagged `prog`
fence (lines 10–11). -/
def docTableThenCode : MdastNode :=
  .mk "root" none none none
    [.mk "table" none none (some ⟨2, 3⟩) [],
     .mk "code" (some "Dm7 → G7") (some "prog") (some ⟨10, 11⟩) []]

/-- A document whose only paragraph line is a labelled three-character
progression. -/
def docLabelledShortLine : MdastNode :=
  .mk "root" none none none
    [.mk "paragraph" none none none [.mk "text" (some "chords: A→B") none none []]]

/-! ## Helper lemmas -/

/-- A JavaScript truthiness gate keeps a well-formed optional string
(absent, or present and non-empty) unchanged. -/
theorem truthyGate (o : Option String) (h : o ≠ some "") :
    (if optTruthy o then o else none) = o := by
  match o with
  | none => rfl
  | some s =>
    have hs : s ≠ "" := fun he => h (by rw [he])
    simp [optTruthy, hs]

/-! ## C5 — heuristic acceptance threshold -/

/-- C5: `isChordProgression` accepts a line exactly when, splitting on
the arrow separators, at least 2 pieces match the chord grammar after
trimming and matching pieces are at least 80% of all pieces; in
particular a 5-piece line with 4 matches is accepted and one with 3
matches is rejected. -/
theorem isChordProgression_iff_threshold :
    (∀ t : String,
      isChordProgression t = true ↔
        2 ≤ ((jsSplitSep arrowSeps t).filter (fun p => chordPatternTest (jsTrim p))).length ∧
        4 * (jsSplitSep arrowSeps t).length ≤
          5 * ((jsSplitSep arrowSeps t).filter (fun p => chordPatternTest (jsTrim p))).length) ∧
    (jsSplitSep arrowSeps "C → D → E → F → hello").length = 5 ∧
    ((jsSplitSep arrowSeps "C → D → E → F → hello").filter
      (fun p => chordPatternTest (jsTrim p))).length = 4 ∧
    isChordProgression "C → D → E → F → hello" = true ∧
    (jsSplitSep arrowSeps "C → D → E → x → y").length = 5 ∧
    ((jsSplitSep arrowSeps "C → D → E → x → y").filter
      (fun p => chordPatternTest (jsTrim p))).length = 3 ∧
    isChordProgression "C → D → E → x → y" = false := by
  refine ⟨fun t => ?_, by decide, by decide, by decide, by decide, by decide, by decide⟩
  by_cases h : (jsSplitSep arrowSeps t).length < 2
  · simp only [isChordProgression, if_pos h, Bool.false_eq_true, false_iff, not_and]
    intro h2
    exact absurd (le_trans h2 (List.length_filter_le _ _)) (by omega)
  · simp [isChordProgression, if_neg h]

/-- C5 witness: the acceptance direction of the threshold criterion at
the 4-of-5 example. -/
theorem isChordProgression_iff_threshold_witness :
    isChordProgression "C → D → E → F → hello" = true :=
  (isChordProgression_iff_threshold.1 "C → D → E → F → hello").mpr (by decide)

/-! ## C6 — the chord-progression splitter -/

/-- C6: `parseChordProgression` tokenizes the spec's examples as stated
(`→`, `->` and `|` all separate), and its output never contains an
empty string. -/
theorem parseChordProgression_spec :
    parseChordProgression "Dm7 → G7 → Cmaj7" = ["Dm7", "G7", "Cmaj7"] ∧
    parseChordProgression "Dm7 -> G7" = ["Dm7", "G7"] ∧
    parseChordProgression "Dm7 | G7" = ["Dm7", "G7"] ∧
    ∀ s : String, (parseChordProgression s).all (fun p => !(p == "")) = true := by
  refine ⟨by decide, by decide, by decide, fun s => ?_⟩
  rw [List.all_eq_true]
  intro p hp
  have h0 : (0 : Nat) < p.length := by
    simpa using List.of_mem_filter hp
  have hne : p ≠ "" := by
    intro he
    rw [he] at h0
    simp at h0
  simpa using hne

/-! ## Line-splitting lemmas (for the header-splitter claims) -/

theorem splitNlChars_ne_nil : ∀ cs : List Char, splitNlChars cs ≠ []
  | [] => by simp [splitNlChars]
  | c :: cs => by
    simp only [splitNlChars]
    split
    · simp
    · match h : splitNlChars cs with
      | [] => simp
      | p :: ps => simp

/-- Splitting at an explicit newline after a newline-free prefix. -/
theorem splitNlChars_append (a b : List Char) (h : '\n' ∉ a) :
    splitNlChars (a ++ '\n' :: b) = a :: splitNlChars b := by
  induction a with
  | nil => simp [splitNlChars]
  | cons c a ih =>
    have hc : ¬(c = '\n') := fun he => h (by rw [he]; exact List.mem_cons_self _ _)
    have ih2 := ih (fun hm => h (List.mem_cons_of_mem c hm))
    simp only [List.cons_append, splitNlChars, if_neg hc]
    rw [show a.append ('\n' :: b) = a ++ '\n' :: b from rfl, ih2]

/-- `join("\n")` undoes `split("\n")`. -/
theorem joinNl_splitNlChars : ∀ cs : List Char, joinNl (splitNlChars cs) = cs
  | [] => by simp [splitNlChars, joinNl]
  | c :: cs => by
    have ih := joinNl_splitNlChars cs
    simp only [splitNlChars]
    split
    · rename_i hc
      subst hc
      match h : splitNlChars cs with
      | [] => exact absurd h (splitNlChars_ne_nil cs)
      | p :: ps =>
        rw [h] at ih
        match ps with
        | [] => simp_all [joinNl]
        | q :: qs => simp_all [joinNl]
    · match h : splitNlChars cs with
      | [] => exact absurd h (splitNlChars_ne_nil cs)
      | p :: ps =>
        rw [h] at ih
        match ps with
        | [] => simp_all [joinNl]
        | q :: qs => simp_all [joinNl]

theorem splitNl_append (a b : String) (h : '\n' ∉ a.data) :
    splitNl (a ++ "\n" ++ b) = a :: splitNl b := by
  simp only [splitNl, String.data_append]
  have : a.data ++ "\n".data ++ b.data = a.data ++ '\n' :: b.data := by
    simp [show "\n".data = ['\n'] from rfl]
  rw [this, splitNlChars_append a.data b.data h]
  simp

theorem joinNlStr_splitNl (s : String) : joinNlStr (splitNl s) = s := by
  simp only [joinNlStr, splitNl, List.map_map]
  have : (String.data ∘ String.mk) = id := by
    funext l
    rfl
  rw [this, List.map_id, joinNl_splitNlChars]

/-! ## Trim lemmas -/

theorem dropWhile_eq_self_of_all {p : Char → Bool} :
    ∀ l : List Char, (∀ c ∈ l, p c = false) → l.dropWhile p = l
  | [], _ => rfl
  | c :: cs, h => by
    have hc : p c = false := h c (List.mem_cons_self _ _)
    simp [List.dropWhile_cons, hc]

/-- Trimming a list whose first and last characters are not whitespace
changes nothing. -/
theorem jsTrimList_eq_self_of_ends (l : List Char)
    (h1 : ∀ c, l.head? = some c → isJsWs c = false)
    (h2 : ∀ c, l.getLast? = some c → isJsWs c = false) : jsTrimList l = l := by
  unfold jsTrimList
  have hd : l.dropWhile isJsWs = l := by
    match l with
    | [] => rfl
    | c :: cs => simp [List.dropWhile_cons, h1 c rfl]
  rw [hd]
  have hr : l.reverse.dropWhile isJsWs = l.reverse := by
    match hrev : l.reverse with
    | [] => rfl
    | c :: cs =>
      have : l.getLast? = some c := by
        rw [← List.head?_reverse, hrev]
        rfl
      simp [List.dropWhile_cons, h2 c this]
  rw [hr, List.reverse_reverse]

/-- A token: non-empty, and free of whitespace and newlines. -/
def cleanToken (s : String) : Prop :=
  s.data ≠ [] ∧ ∀ c ∈ s.data, isJsWs c = false

theorem cleanToken_getLast {s : String} (h : cleanToken s) :
    ∀ c, s.data.getLast? = some c → isJsWs c = false := by
  intro c hc
  exact h.2 c (List.mem_of_mem_getLast? hc)

/-- Trimming `prefixStr ++ v` for a clean token `v` and a prefix whose
first character is not whitespace and whose only whitespace is internal. -/
theorem jsTrim_concrete_clean (p : String) (v : String) (hp : p.data ≠ [])
    (hph : ∀ c, p.data.head? = some c → isJsWs c = false)
    (hv : cleanToken v) : jsTrim (p ++ v) = p ++ v := by
  unfold jsTrim
  rw [String.data_append]
  rw [jsTrimList_eq_self_of_ends]
  · rfl
  · intro c hc
    rw [List.head?_append_of_ne_nil _ hp] at hc
    exact hph c hc
  · intro c hc
    rw [List.getLast?_append_of_ne_nil _ hv.1] at hc
    exact cleanToken_getLast hv c hc

/-- Trimming a clean token preceded by a single space yields the token. -/
theorem jsTrim_space_clean (v : String) (hv : cleanToken v) :
    jsTrim (" " ++ v) = v := by
  unfold jsTrim
  rw [String.data_append]
  show String.mk (jsTrimList (' ' :: v.data)) = v
  have h1 : (' ' :: v.data).dropWhile isJsWs = v.data := by
    rw [List.dropWhile_cons]
    simp only [show isJsWs ' ' = true from rfl, if_pos]
    exact dropWhile_eq_self_of_all v.data hv.2
  unfold jsTrimList
  rw [h1]
  have h2 : v.data.reverse.dropWhile isJsWs = v.data.reverse := by
    apply dropWhile_eq_self_of_all
    intro c hc
    exact hv.2 c (List.mem_reverse.mp hc)
  rw [h2, List.reverse_reverse]

/-! ## Header-loop stepping lemmas -/

/-- Strings with distinct first characters differ. -/
theorem ne_of_data_head (a b : String) (ca cb : Char) (ha : a.data.head? = some ca)
    (hb : b.data.head? = some cb) (hne : ca ≠ cb) : a ≠ b := by
  intro he
  rw [he] at ha
  rw [ha] at hb
  exact hne (by injection hb)

/-- The keyword of a header key. -/
def hkeyName : HKey → String
  | .title => "title"
  | .key => "key"
  | .note => "note"

/-- Overwriting assignment: setting the same key twice keeps the second
value. -/
theorem HeaderFields.set_set_same (acc : HeaderFields) (k : HKey) (v₁ v₂ : String) :
    (acc.set k v₁).set k v₂ = acc.set k v₂ := by
  cases k <;> rfl

/-- One header-loop step on a recognized `key: value` line assigns the
(trimmed) value and continues. -/
theorem headerLoop_key_step (acc : HeaderFields) (k : HKey) (v : String)
    (ls : List String) (hv : cleanToken v) :
    headerLoop acc ((hkeyName k ++ ": " ++ v) :: ls) = headerLoop (acc.set k v) ls := by
  cases k
  case title =>
    show headerLoop acc (("title: " ++ v) :: ls) = headerLoop (acc.set .title v) ls
    have ht : jsTrim ("title: " ++ v) = "title: " ++ v :=
      jsTrim_concrete_clean "title: " v (by decide)
        (fun c hc => by injection hc with h; rw [← h]; decide) hv
    simp only [headerLoop, ht]
    rw [if_neg (ne_of_data_head ("title: " ++ v) "---" 't' '-' rfl rfl (by decide))]
    rw [show headerKeyMatch ("title: " ++ v) = some (HKey.title, " " ++ v) from rfl]
    show headerLoop (acc.set HKey.title (jsTrim (" " ++ v))) ls = headerLoop (acc.set HKey.title v) ls
    rw [jsTrim_space_clean v hv]
  case key =>
    show headerLoop acc (("key: " ++ v) :: ls) = headerLoop (acc.set .key v) ls
    have ht : jsTrim ("key: " ++ v) = "key: " ++ v :=
      jsTrim_concrete_clean "key: " v (by decide)
        (fun c hc => by injection hc with h; rw [← h]; decide) hv
    simp only [headerLoop, ht]
    rw [if_neg (ne_of_data_head ("key: " ++ v) "---" 'k' '-' rfl rfl (by decide))]
    rw [show headerKeyMatch ("key: " ++ v) = some (HKey.key, " " ++ v) from rfl]
    show headerLoop (acc.set HKey.key (jsTrim (" " ++ v))) ls = headerLoop (acc.set HKey.key v) ls
    rw [jsTrim_space_clean v hv]
  case note =>
    show headerLoop acc (("note: " ++ v) :: ls) = headerLoop (acc.set .note v) ls
    have ht : jsTrim ("note: " ++ v) = "note: " ++ v :=
      jsTrim_concrete_clean "note: " v (by decide)
        (fun c hc => by injection hc with h; rw [← h]; decide) hv
    simp only [headerLoop, ht]
    rw [if_neg (ne_of_data_head ("note: " ++ v) "---" 'n' '-' rfl rfl (by decide))]
    rw [show headerKeyMatch ("note: " ++ v) = some (HKey.note, " " ++ v) from rfl]
    show headerLoop (acc.set HKey.note (jsTrim (" " ++ v))) ls = headerLoop (acc.set HKey.note v) ls
    rw [jsTrim_space_clean v hv]

/-- The `---` separator line ends the header, consumed. -/
theorem headerLoop_dash (acc : HeaderFields) (ls : List String) :
    headerLoop acc ("---" :: ls) = (acc, ls) := by
  simp [headerLoop, show jsTrim "---" = "---" from rfl]

/-! ## C4 — duplicate metadata header keys -/

/-- C4 counterexample: on a region repeating `title:`, the Header/Body
Splitter keeps the value of the *last* matching line, not the first —
the later occurrence overwrites the earlier one. -/
theorem parseBlockContent_dup_title_not_first :
    (parseBlockContent "title: A\ntitle: B\n---\nx").title = some "B" ∧
    (some "B" : Option String) ≠ some "A" := by
  exact ⟨by decide, by decide⟩

/-- C4 (amended): for any of the three metadata keys, when the same key
occurs on two header lines, the value of the last matching line wins
(the assignment overwrites); the body is unaffected. -/
theorem parseBlockContent_repeated_key_overwrites :
    ∀ (k : HKey) (v₁ v₂ rest : String), cleanToken v₁ → cleanToken v₂ →
      parseBlockContent
          (hkeyName k ++ ": " ++ v₁ ++ "\n" ++
            (hkeyName k ++ ": " ++ v₂ ++ "\n" ++ ("---" ++ "\n" ++ rest))) =
        { title := (HeaderFields.set {} k v₂).title,
          key := (HeaderFields.set {} k v₂).key,
          note := (HeaderFields.set {} k v₂).note,
          body := jsTrim rest } := by
  intro k v₁ v₂ rest h₁ h₂
  have hnl : ∀ v : String, cleanToken v → '\n' ∉ (hkeyName k ++ ": " ++ v).data := by
    intro v hv hm
    rw [String.data_append] at hm
    rcases List.mem_append.mp hm with hl | hr
    · cases k <;> revert hl <;> decide
    · exact absurd (hv.2 '\n' hr) (by decide)
  have hs : splitNl
      (hkeyName k ++ ": " ++ v₁ ++ "\n" ++
        (hkeyName k ++ ": " ++ v₂ ++ "\n" ++ ("---" ++ "\n" ++ rest))) =
      (hkeyName k ++ ": " ++ v₁) :: (hkeyName k ++ ": " ++ v₂) :: "---" :: splitNl rest := by
    rw [splitNl_append _ _ (hnl v₁ h₁), splitNl_append _ _ (hnl v₂ h₂),
      splitNl_append "---" rest (by decide)]
  unfold parseBlockContent
  rw [hs]
  rw [headerLoop_key_step {} k v₁ _ h₁, headerLoop_key_step _ k v₂ _ h₂,
    HeaderFields.set_set_same, headerLoop_dash]
  simp only []
  rw [joinNlStr_splitNl]

/-- C4 witness: the amended claim at `title: A` / `title: B` with body
`x`. -/
theorem parseBlockContent_repeated_key_overwrites_witness :
    parseBlockContent ("title" ++ ": " ++ "A" ++ "\n" ++
        ("title" ++ ": " ++ "B" ++ "\n" ++ ("---" ++ "\n" ++ "x"))) =
      { title := some "B", key := none, note := none, body := "x" } :=
  parseBlockContent_repeated_key_overwrites .title "A" "B" "x"
    ⟨by decide, by decide⟩ ⟨by decide, by decide⟩

/-! ## C2 — unrecognized manifest type fails fast -/

/-- C2: decoding a persisted item whose `type` is none of the four
recognized tags yields no block (it is never converted into one), and
the regeneration step for that item reports a synchronous error (the
filename generator's destructuring of the undefined decode result
throws); the item is not silently dropped. -/
theorem unknown_manifest_type_fails_fast :
    ∀ item : ManifestItem,
      item.type ∉ ["table", "prog", "deg", "score"] →
      manifestItemToBlockData item = none ∧
      regenerateItemFilename item =
        Except.error "TypeError: cannot destructure property of undefined" := by
  intro item h
  simp only [List.mem_cons, List.not_mem_nil, or_false, not_or] at h
  obtain ⟨h1, h2, h3, h4⟩ := h
  have hd : manifestItemToBlockData item = none := by
    unfold manifestItemToBlockData
    rw [if_neg h1, if_neg h2, if_neg h3, if_neg h4]
  refine ⟨hd, ?_⟩
  unfold regenerateItemFilename
  rw [hd]

/-- C2 witness: an item with `type: "unknown"` decodes to no block and
regeneration errors. -/
theorem unknown_manifest_type_fails_fast_witness :
    manifestItemToBlockData { index := 1, type := "unknown", output := "x.png" } = none ∧
    regenerateItemFilename { index := 1, type := "unknown", output := "x.png" } =
      Except.error "TypeError: cannot destructure property of undefined" :=
  unknown_manifest_type_fails_fast
    { index := 1, type := "unknown", output := "x.png" } (by decide)

/-! ## C10 — table caption/title coupling in the codec -/

/-- C10 counterexample: a table block with an *empty-string* caption and
no title is encoded with no `title` field at all — the caption is
present on the block but is not stored under the item's title field,
against the claim that an absent title always stores the caption
there. -/
theorem table_empty_caption_not_stored :
    (blockToManifestItem (BlockData.table 1 none (some "") [] [] none) "t.png").title
        = none ∧
    (BlockData.table 1 none (some "") [] [] none).title = none ∧
    (BlockData.table 1 none (some "") [] [] none).caption = some "" ∧
    (some "" : Option String) ≠ none := by
  exact ⟨by decide, by decide, by decide, by decide⟩

/-- C10 (amended): every decoded table block has `caption = title`
(both copied from the item's single `title` field), and at encode time a
table block's caption is stored under the item's title field when the
title is absent and the caption is non-empty (a truthy caption). -/
theorem table_caption_title_coupling :
    (∀ (item : ManifestItem) (i : Nat) (t c : Option String) (hs : List String)
        (rs : List (List String)) (src : Option SourceLocation),
      manifestItemToBlockData item = some (.table i t c hs rs src) → c = t) ∧
    (∀ (i : Nat) (c : String) (hs : List String) (rs : List (List String))
        (src : Option SourceLocation) (fn : String), c ≠ "" →
      (blockToManifestItem (.table i none (some c) hs rs src) fn).title = some c) := by
  constructor
  · intro item i t c hs rs src h
    unfold manifestItemToBlockData at h
    split_ifs at h
    · simp only [Option.some.injEq, BlockData.table.injEq] at h
      rw [← h.2.1, ← h.2.2.1]
    · simp at h
    · simp at h
    · simp at h
  · intro i c hs rs src fn hc
    simp [blockToManifestItem, BlockData.title, BlockData.caption, optTruthy, hc]

/-- C10 witness: decode coupling at a concrete table item, and encode
fallback at a concrete caption-only table block. -/
theorem table_caption_title_coupling_witness :
    ((some "X" : Option String) = some "X") ∧
    (blockToManifestItem (BlockData.table 1 none (some "Cap") [] [] none) "t.png").title
        = some "Cap" := by
  constructor
  · exact table_caption_title_coupling.1
      { index := 1, type := "table", title := some "X", output := "o" }
      1 (some "X") (some "X") [] [] none (by decide)
  · exact table_caption_title_coupling.2 1 "Cap" [] [] none "t.png" (by decide)

/-! ## C1 — the round-trip law -/

/-- C1 counterexample: extraction can produce a block whose `title` is
the empty string (a `title:` header line with no value); encoding drops
the falsy title and decoding returns an absent title, so the decoded
block differs from the original in its title field. -/
theorem roundtrip_fails_on_empty_title :
    parseMarkdownBlocks trivialParse docEmptyTitle "" none true =
        [BlockData.prog 1 (some "") none ["Dm7"] none none] ∧
    manifestItemToBlockData
        (blockToManifestItem (BlockData.prog 1 (some "") none ["Dm7"] none none)
          "prog-01.png") =
      some (BlockData.prog 1 none none ["Dm7"] none none) ∧
    BlockData.prog 1 none none ["Dm7"] none none ≠
      BlockData.prog 1 (some "") none ["Dm7"] none none := by
  exact ⟨by decide, by decide, by decide⟩

/-- A block is manifest-well-formed when its optional string fields are
absent or non-empty (never the falsy `""`), and, for a table, its
caption equals its title — which holds for every block the extraction
pass produces except those with an empty-string title, key, note or
caption. -/
def wellFormedBlock : BlockData → Prop
  | .table _ t c _ _ _ => t ≠ some "" ∧ c = t
  | .prog _ t k _ n _ => t ≠ some "" ∧ k ≠ some "" ∧ n ≠ some ""
  | .deg _ t k _ n _ => t ≠ some "" ∧ k ≠ some "" ∧ n ≠ some ""
  | .score _ t k _ _ n _ => t ≠ some "" ∧ k ≠ some "" ∧ n ≠ some ""

/-- C1 (amended): for every block whose optional string fields are
absent or non-empty (and whose caption mirrors its title, as extraction
guarantees for tables), encoding into a ManifestItem and decoding back
yields exactly the original block — all fields equal, SourceLocation
passed through verbatim; the timestamp lives on the Manifest envelope,
not the item, and does not participate. -/
theorem manifest_roundtrip_wellformed :
    ∀ (b : BlockData) (filename : String), wellFormedBlock b →
      manifestItemToBlockData (blockToManifestItem b filename) = some b := by
  intro b filename hwf
  cases b with
  | table i t c hs rs src =>
    obtain ⟨ht, hct⟩ := hwf
    subst hct
    simp [blockToManifestItem, manifestItemToBlockData, BlockData.btype,
      BlockType.str, BlockData.index, BlockData.title, BlockData.caption,
      BlockData.key, BlockData.note, BlockData.source, truthyGate _ ht]
  | prog i t k cs n src =>
    obtain ⟨ht, hk, hn⟩ := hwf
    simp [blockToManifestItem, manifestItemToBlockData, BlockData.btype,
      BlockType.str, BlockData.index, BlockData.title, BlockData.caption,
      BlockData.key, BlockData.note, BlockData.source,
      truthyGate _ ht, truthyGate _ hk, truthyGate _ hn]
  | deg i t k ds n src =>
    obtain ⟨ht, hk, hn⟩ := hwf
    simp [blockToManifestItem, manifestItemToBlockData, BlockData.btype,
      BlockType.str, BlockData.index, BlockData.title, BlockData.caption,
      BlockData.key, BlockData.note, BlockData.source,
      truthyGate _ ht, truthyGate _ hk, truthyGate _ hn]
  | score i t k cs bs n src =>
    obtain ⟨ht, hk, hn⟩ := hwf
    simp [blockToManifestItem, manifestItemToBlockData, BlockData.btype,
      BlockType.str, BlockData.index, BlockData.title, BlockData.caption,
      BlockData.key, BlockData.note, BlockData.source,
      truthyGate _ ht, truthyGate _ hk, truthyGate _ hn]

/-- C1 witness: the round trip at a concrete well-formed prog block with
a verbatim SourceLocation. -/
theorem manifest_roundtrip_wellformed_witness :
    manifestItemToBlockData
        (blockToManifestItem
          (BlockData.prog 2 (some "T") (some "C") ["Dm7", "G7"] (some "n")
            (some ⟨"f.md", 3, 5⟩)) "prog-02-T.png") =
      some (BlockData.prog 2 (some "T") (some "C") ["Dm7", "G7"] (some "n")
        (some ⟨"f.md", 3, 5⟩)) :=
  manifest_roundtrip_wellformed _ "prog-02-T.png" ⟨by decide, by decide, by decide⟩

/-! ## Counter-threading lemmas (for the index claims) -/

theorem emitFrom_length {α : Type} : ∀ (l : List (Nat → α)) (s : Nat),
    (emitFrom s l).length = l.length
  | [], _ => rfl
  | _ :: fs, s => by
    simp [emitFrom, emitFrom_length fs (s + 1)]

/-- When every emitter returns a block carrying the index it is given,
the emitted indices are consecutive from the start counter. -/
theorem emitFrom_map_index : ∀ (l : List (Nat → BlockData)) (s : Nat),
    (∀ f ∈ l, ∀ i, (f i).index = i) →
    (emitFrom s l).map BlockData.index = List.range' s l.length
  | [], s, _ => rfl
  | f :: fs, s, h => by
    have hf := h f (List.mem_cons_self _ _) s
    have ih := emitFrom_map_index fs (s + 1)
      (fun g hg i => h g (List.mem_cons_of_mem f hg) i)
    simp [emitFrom, hf, ih, List.range']

theorem range'_split : ∀ (a s b : Nat),
    List.range' s a ++ List.range' (s + a) b = List.range' s (a + b)
  | 0, s, b => by simp
  | a + 1, s, b => by
    have ih := range'_split a (s + 1) b
    simp only [List.range']
    rw [List.cons_append]
    rw [show s + (a + 1) = s + 1 + a by omega, ih]
    rw [show a + 1 + b = (a + b) + 1 by omega]
    rfl

theorem codeNodeToProgData_index (n : MdastNode) (i : Nat) (fp : String) :
    (codeNodeToProgData n i fp).index = i := rfl

theorem codeNodeToDegData_index (n : MdastNode) (i : Nat) (fp : String) :
    (codeNodeToDegData n i fp).index = i := rfl

theorem codeNodeToScoreData_index (n : MdastNode) (i : Nat) (fp : String) :
    (codeNodeToScoreData n i fp).index = i := rfl

theorem tableNodeToBlockData_index (n : MdastNode) (i : Nat) (cap : Option String)
    (fp : String) : (tableNodeToBlockData n i cap fp).index = i := by
  unfold tableNodeToBlockData
  split <;> rfl

theorem parseFencedTableBlock_index (parseStr : String → MdastNode) (n : MdastNode)
    (i : Nat) (fp : String) : (parseFencedTableBlock parseStr n i fp).index = i := by
  unfold parseFencedTableBlock
  simp only []
  split <;> rfl

theorem codeEmit_index (parseStr : String → MdastNode) (fp : String)
    (tt : List BlockType) (n : MdastNode) :
    ∀ f ∈ codeEmit parseStr fp tt n, ∀ i, (f i).index = i := by
  intro f hf i
  unfold codeEmit at hf
  split at hf
  · simp at hf
  · split at hf
    · split at hf
      · simp only [List.mem_singleton] at hf
        subst hf
        exact codeNodeToProgData_index n i fp
      · simp only [List.mem_singleton] at hf
        subst hf
        exact codeNodeToDegData_index n i fp
      · simp only [List.mem_singleton] at hf
        subst hf
        exact codeNodeToScoreData_index n i fp
      · simp only [List.mem_singleton] at hf
        subst hf
        exact parseFencedTableBlock_index parseStr n i fp
    · simp at hf

theorem PreDetected.toBlock_index (pb : PreDetected) (i : Nat) :
    (pb.toBlock i).index = i := by
  cases pb <;> rfl

/-! ## C3 — occurrence-index assignment and emission order -/

/-- C3 counterexample: with a generic table at lines 2–3 followed by a
tagged `prog` fence at lines 10–11, the extraction pass emits the tagged
block first (index 1, source line 10) and the table second (index 2,
source line 2): the tagged-and-table prefix of the block list is *not*
in document order, because all fenced code blocks are visited in one
pass before all generic tables. -/
theorem extraction_not_document_ordered :
    ((parseMarkdownBlocks trivialParse docTableThenCode "f" none true).map
        (fun b => (b.btype, b.index, b.source.map SourceLocation.startLine))) =
      [(BlockType.prog, 1, some 10), (BlockType.table, 2, some 2)] ∧
    (2 : Nat) < 10 := by
  exact ⟨by decide, by decide⟩

/-- C3 (amended): the block list of one extraction pass carries
occurrence indices exactly `1..N` in emission order, one counter
numbering first all tagged (fenced) blocks in document order, then all
generic tables in document order, then the heuristic detections — the
tagged and table groups are each internally in document order but are
not interleaved with each other. -/
theorem parseMarkdownBlocks_indices :
    ∀ (parseStr : String → MdastNode) (tree : MdastNode) (filePath : String)
      (types : Option (List BlockType)) (autoDetect : Bool),
      (parseMarkdownBlocks parseStr tree filePath types autoDetect).map BlockData.index =
        List.range' 1 (parseMarkdownBlocks parseStr tree filePath types autoDetect).length := by
  intro parseStr tree filePath types autoDetect
  unfold parseMarkdownBlocks
  simp only []
  set tt := types.getD VALID_BLOCK_TYPES with htt
  set emits := (collectByType "code" tree).flatMap (codeEmit parseStr filePath tt) ++
    (if tt.contains .table then
      (collectTables tree).map (fun pc => fun i => tableNodeToBlockData pc.1 i pc.2 filePath)
      else []) with hemits
  have hidx : ∀ f ∈ emits, ∀ i, (f i).index = i := by
    intro f hf i
    rw [hemits] at hf
    rcases List.mem_append.mp hf with hcode | htab
    · rcases List.mem_flatMap.mp hcode with ⟨n, _, hfn⟩
      exact codeEmit_index parseStr filePath tt n f hfn i
    · by_cases hc : tt.contains BlockType.table
      · rw [if_pos hc] at htab
        rcases List.mem_map.mp htab with ⟨pc, _, hpc⟩
        rw [← hpc]
        exact tableNodeToBlockData_index pc.1 i pc.2 filePath
      · rw [if_neg hc] at htab
        simp at htab
  have hdet : ∀ f ∈ (detectPre tree filePath tt).map PreDetected.toBlock,
      ∀ i, (f i).index = i := by
    intro f hf i
    rcases List.mem_map.mp hf with ⟨pb, _, hpb⟩
    rw [← hpb]
    exact PreDetected.toBlock_index pb i
  cases autoDetect with
  | false =>
    simp only [if_neg Bool.false_ne_true, List.append_nil]
    rw [emitFrom_map_index emits 1 hidx, emitFrom_length]
  | true =>
    simp only [if_pos rfl, if_true]
    unfold detectPlainTextBlocks
    rw [List.map_append, emitFrom_map_index emits 1 hidx,
      emitFrom_map_index _ (1 + emits.length) hdet]
    simp only [List.length_append, emitFrom_length, List.length_map]
    rw [range'_split]

/-! ## C7 — the 5-character gate of the heuristic detector -/

/-- C7 counterexample: in the paragraph line `chords: A→B` the candidate
after label stripping is `A→B`, only 3 characters long, yet it is *not*
discarded — a prog block is emitted.  The 5-character gate tests the
whole trimmed text-node value (11 characters here), not the stripped
candidate. -/
theorem short_candidate_after_label_not_discarded :
    detectPlainTextBlocks docLabelledShortLine "" 1 VALID_BLOCK_TYPES =
      [BlockData.prog 1 none none ["A", "B"] none none] ∧
    detectLineCandidate "chords: A→B" = "A→B" ∧
    "A→B".length < 5 := by
  exact ⟨by decide, by decide, by decide⟩

/-- C7 (amended): the 5-character minimum is applied to the whole
trimmed text value of a text child, before line splitting and label
stripping: a paragraph whose only text value trims to fewer than 5
characters produces no heuristic block, while a stripped per-line
candidate shorter than 5 characters can still produce one. -/
theorem detect_gate_on_whole_text_value :
    ∀ (v filePath : String) (start : Nat) (types : List BlockType),
      (jsTrim v).length < 5 →
      detectPlainTextBlocks
        (.mk "root" none none none
          [.mk "paragraph" none none none [.mk "text" (some v) none none []]])
        filePath start types = [] := by
  intro v fp start types h
  simp [detectPlainTextBlocks, detectPre, collectParas, allNodes, allNodesIn,
    detectParagraph, detectTextChild, MdastNode.ntype, MdastNode.children,
    MdastNode.value, emitFrom, h]

/-- C7 witness: the unlabelled candidate `A→B` (3 characters in total)
is discarded by the whole-value gate. -/
theorem detect_gate_on_whole_text_value_witness :
    detectPlainTextBlocks
        (.mk "root" none none none
          [.mk "paragraph" none none none [.mk "text" (some "A→B") none none []]])
        "" 1 VALID_BLOCK_TYPES = [] :=
  detect_gate_on_whole_text_value "A→B" "" 1 VALID_BLOCK_TYPES (by decide)

/-! ## Sanitization lemmas (for the filename claim) -/

theorem jsTrimList_subset (l : List Char) : ∀ c ∈ jsTrimList l, c ∈ l := by
  intro c hc
  unfold jsTrimList at hc
  rw [List.mem_reverse] at hc
  have h1 : c ∈ (l.dropWhile isJsWs).reverse := (List.dropWhile_sublist _).subset hc
  rw [List.mem_reverse] at h1
  exact (List.dropWhile_sublist _).subset h1

theorem jsTrimList_length_le (l : List Char) : (jsTrimList l).length ≤ l.length := by
  unfold jsTrimList
  rw [List.length_reverse]
  calc ((l.dropWhile isJsWs).reverse.dropWhile isJsWs).length
      ≤ (l.dropWhile isJsWs).reverse.length := (List.dropWhile_sublist _).length_le
    _ = (l.dropWhile isJsWs).length := List.length_reverse _
    _ ≤ l.length := (List.dropWhile_sublist _).length_le

/-- Every character of a collapsed-whitespace list is a hyphen or a
non-whitespace character of the input. -/
theorem collapseWsRuns_mem : ∀ (b : Bool) (l : List Char) (c : Char),
    c ∈ collapseWsRuns b l → c = '-' ∨ (c ∈ l ∧ isJsWs c = false)
  | _, [], c, h => by simp [collapseWsRuns] at h
  | b, d :: ds, c, h => by
    unfold collapseWsRuns at h
    by_cases hw : isJsWs d
    · rw [if_pos hw] at h
      cases b with
      | true =>
        rw [if_pos rfl] at h
        rcases collapseWsRuns_mem true ds c h with h1 | ⟨h2, h3⟩
        · exact Or.inl h1
        · exact Or.inr ⟨List.mem_cons_of_mem d h2, h3⟩
      | false =>
        simp only [Bool.false_eq_true, if_false, List.mem_cons] at h
        rcases h with h1 | h1
        · exact Or.inl h1
        · rcases collapseWsRuns_mem true ds c h1 with h2 | ⟨h3, h4⟩
          · exact Or.inl h2
          · exact Or.inr ⟨List.mem_cons_of_mem d h3, h4⟩
    · rw [if_neg hw] at h
      rcases List.mem_cons.mp h with h1 | h1
      · subst h1
        exact Or.inr ⟨List.mem_cons_self _ _, by simpa using hw⟩
      · rcases collapseWsRuns_mem false ds c h1 with h2 | ⟨h3, h4⟩
        · exact Or.inl h2
        · exact Or.inr ⟨List.mem_cons_of_mem d h3, h4⟩

theorem natDecDigits_digit : ∀ (fuel n : Nat) (c : Char),
    c ∈ natDecDigits fuel n →
    c ∈ ['0', '1', '2', '3', '4', '5', '6', '7', '8', '9']
  | 0, n, c, h => by simp [natDecDigits] at h
  | fuel + 1, n, c, h => by
    unfold natDecDigits at h
    by_cases hn : n < 10
    · rw [if_pos hn] at h
      rcases List.mem_singleton.mp h with rfl
      interval_cases n <;> decide
    · rw [if_neg hn] at h
      rcases List.mem_append.mp h with h1 | h1
      · exact natDecDigits_digit fuel (n / 10) c h1
      · rcases List.mem_singleton.mp h1 with rfl
        have hm : n % 10 < 10 := Nat.mod_lt _ (by omega)
        set m := n % 10 with hmeq
        interval_cases m <;> decide

theorem digit_clean : ∀ c : Char,
    c ∈ ['0', '1', '2', '3', '4', '5', '6', '7', '8', '9'] →
    (!forbiddenFilenameChar c && !isJsWs c) = true := by
  intro c h
  fin_cases h <;> decide

theorem padStart2_all_clean (n : Nat) :
    (padStart2 n).data.all (fun c => !forbiddenFilenameChar c && !isJsWs c) = true := by
  rw [List.all_eq_true]
  intro c hc
  unfold padStart2 at hc
  simp only [] at hc
  split at hc
  · rw [String.data_append] at hc
    rcases List.mem_append.mp hc with h1 | h1
    · rcases List.mem_singleton.mp h1 with rfl
      decide
    · exact digit_clean c (natDecDigits_digit _ _ c h1)
  · exact digit_clean c (natDecDigits_digit _ _ c hc)

/-- The sanitized-title facts of C8. -/
theorem sanitize_props (s : String) :
    (sanitizeFilename s).length ≤ 50 ∧
    ∀ c ∈ (sanitizeFilename s).data,
      forbiddenFilenameChar c = false ∧ isJsWs c = false := by
  constructor
  · show (jsTrimList ((collapseWsRuns false
      (s.data.filter (fun c => !forbiddenFilenameChar c))).take 50)).length ≤ 50
    calc (jsTrimList _).length
        ≤ ((collapseWsRuns false
            (s.data.filter (fun c => !forbiddenFilenameChar c))).take 50).length :=
          jsTrimList_length_le _
      _ ≤ 50 := List.length_take_le _ _
  · intro c hc
    have h1 : c ∈ (collapseWsRuns false
        (s.data.filter (fun c => !forbiddenFilenameChar c))).take 50 :=
      jsTrimList_subset _ c hc
    have h2 := List.mem_of_mem_take h1
    rcases collapseWsRuns_mem false _ c h2 with h3 | ⟨h4, h5⟩
    · subst h3
      exact ⟨rfl, rfl⟩
    · have := List.of_mem_filter h4
      exact ⟨by simpa using this, h5⟩

/-! ## C8 — the file-name suggestion -/

/-- C8: the generated file name is the type prefix, the zero-padded
index and (when non-empty) the sanitized title before `.png`;
sanitization yields at most 50 characters containing no forbidden
character and no whitespace; the whole generated name contains no
forbidden character; the spec's concrete example strips `/` and `?`. -/
theorem generateBlockFilename_sanitized :
    (∀ s : String, (sanitizeFilename s).length ≤ 50 ∧
      (sanitizeFilename s).data.all
        (fun c => !forbiddenFilenameChar c && !isJsWs c) = true) ∧
    sanitizeFilename "判断軸/危険?" = "判断軸危険" ∧
    (∀ b : BlockData,
      (generateBlockFilename b).data.all (fun c => !forbiddenFilenameChar c) = true) ∧
    (∀ b : BlockData, ∃ tail : String,
      generateBlockFilename b = b.btype.str ++ "-" ++ padStart2 b.index ++ tail) := by
  refine ⟨fun s => ⟨(sanitize_props s).1, ?_⟩, by decide, fun b => ?_, fun b => ?_⟩
  · rw [List.all_eq_true]
    intro c hc
    obtain ⟨h1, h2⟩ := (sanitize_props s).2 c hc
    simp [h1, h2]
  · have hstr : (b.btype.str).data.all (fun c => !forbiddenFilenameChar c) = true := by
      cases hb : b.btype <;> decide
    have hpad : (padStart2 b.index).data.all (fun c => !forbiddenFilenameChar c) = true := by
      rw [List.all_eq_true]
      intro c hc
      have := (List.all_eq_true.mp (padStart2_all_clean b.index)) c hc
      simp only [Bool.and_eq_true] at this
      exact this.1
    have hsan : (sanitizeFilename (blockFilenameTitle b)).data.all
        (fun c => !forbiddenFilenameChar c) = true := by
      rw [List.all_eq_true]
      intro c hc
      simp [((sanitize_props (blockFilenameTitle b)).2 c hc).1]
    unfold generateBlockFilename
    simp only []
    split
    · simp only [String.data_append, List.all_append, Bool.and_eq_true]
      exact ⟨⟨⟨⟨⟨hstr, by decide⟩, hpad⟩, by decide⟩, hsan⟩, by decide⟩
    · simp only [String.data_append, List.all_append, Bool.and_eq_true]
      exact ⟨⟨⟨hstr, by decide⟩, hpad⟩, by decide⟩
  · unfold generateBlockFilename
    simp only []
    split
    · exact ⟨"-" ++ sanitizeFilename (blockFilenameTitle b) ++ ".png", by
        simp [String.append_assoc]⟩
    · exact ⟨".png", by simp [String.append_assoc]⟩

/-! ## C9 — emitted heuristic sequences -/

/-- Acceptance gives the extracted subsequence at least 2 elements, all
matching the chord grammar. -/
theorem extractChords_of_accepted (t : String) (h : isChordProgression t = true) :
    2 ≤ (extractChordsFromText t).length ∧
    (extractChordsFromText t).all chordPatternTest = true := by
  unfold isChordProgression at h
  simp only [] at h
  split at h
  · exact absurd h (by simp)
  · simp only [Bool.and_eq_true, decide_eq_true_eq] at h
    constructor
    · unfold extractChordsFromText
      rw [List.filter_map]
      rw [List.length_map]
      have heq : ((jsSplitSep arrowSeps t).filter (chordPatternTest ∘ jsTrim)).length =
          ((jsSplitSep arrowSeps t).filter (fun p => chordPatternTest (jsTrim p))).length := rfl
      rw [heq]
      exact h.1
    · rw [List.all_eq_true]
      intro p hp
      exact List.of_mem_filter hp

/-- Acceptance gives the extracted subsequence at least 2 elements, all
matching the solfège grammar. -/
theorem extractNoteNames_of_accepted (t : String)
    (h : isNoteNameProgression t = true) :
    2 ≤ (extractNoteNamesFromText t).length ∧
    (extractNoteNamesFromText t).all noteNamePatternTest = true := by
  unfold isNoteNameProgression at h
  simp only [] at h
  split at h
  · exact absurd h (by simp)
  · simp only [Bool.and_eq_true, decide_eq_true_eq] at h
    constructor
    · unfold extractNoteNamesFromText
      rw [List.filter_map]
      rw [List.length_map]
      have heq : ((jsSplitSep arrowSeps t).filter (noteNamePatternTest ∘ jsTrim)).length =
          ((jsSplitSep arrowSeps t).filter (fun p => noteNamePatternTest (jsTrim p))).length := rfl
      rw [heq]
      exact h.1
    · rw [List.all_eq_true]
      intro p hp
      exact List.of_mem_filter hp

/-- The claimed invariant of every heuristically emitted block: its
sequence has at least 2 elements and every element matches the
corresponding grammar (vacuous for the tagged/table variants, which the
detector never emits). -/
def heurBlockOk (b : BlockData) : Bool :=
  match b with
  | .prog _ _ _ chords _ _ => decide (2 ≤ chords.length) && chords.all chordPatternTest
  | .deg _ _ _ degrees _ _ => decide (2 ≤ degrees.length) && degrees.all noteNamePatternTest
  | _ => true

/-- Every pre-block one text child yields satisfies the
extracted-sequence invariant once an index is attached. -/
theorem detectTextChild_sound (targetTypes : List BlockType) (title : Option String)
    (src : Option SourceLocation) (child : MdastNode) :
    ∀ pb ∈ detectTextChild targetTypes title src child, ∀ i,
      heurBlockOk (pb.toBlock i) = true := by
  intro pb hpb i
  unfold detectTextChild at hpb
  split at hpb
  · simp only [] at hpb
    split at hpb
    · simp at hpb
    · rcases List.mem_filterMap.mp hpb with ⟨line, _, hl⟩
      unfold detectLine at hl
      simp only [] at hl
      split at hl
      · rename_i hacc
        simp only [Bool.and_eq_true] at hacc
        injection hl with hl
        subst hl
        obtain ⟨h1, h2⟩ := extractChords_of_accepted _ hacc.2
        simp [PreDetected.toBlock, heurBlockOk, h1, h2]
      · split at hl
        · rename_i hacc
          simp only [Bool.and_eq_true] at hacc
          injection hl with hl
          subst hl
          obtain ⟨h1, h2⟩ := extractNoteNames_of_accepted _ hacc.2
          simp [PreDetected.toBlock, heurBlockOk, h1, h2]
        · exact absurd hl (by simp)
  · simp at hpb

/-- Every pre-block the detector builds satisfies the extracted-sequence
invariant once an index is attached. -/
theorem detectPre_sound (tree : MdastNode) (filePath : String)
    (targetTypes : List BlockType) :
    ∀ pb ∈ detectPre tree filePath targetTypes, ∀ i, heurBlockOk (pb.toBlock i) = true := by
  intro pb hpb i
  unfold detectPre at hpb
  rcases List.mem_flatMap.mp hpb with ⟨pc, _, hp⟩
  unfold detectParagraph at hp
  simp only [] at hp
  rcases List.mem_flatMap.mp hp with ⟨child, _, hc⟩
  exact detectTextChild_sound targetTypes _ _ child pb hc i

/-- C9: `extractChordsFromText` (resp. notes) is exactly the filter of
the trimmed arrow-separated pieces through the grammar, in order; hence
every heuristically detected block carries a sequence with at least 2
elements, each matching the corresponding grammar — non-matching pieces
are silently dropped, never kept. -/
theorem heuristic_blocks_sound :
    (∀ t : String, extractChordsFromText t =
      ((jsSplitSep arrowSeps t).map jsTrim).filter chordPatternTest) ∧
    (∀ t : String, extractNoteNamesFromText t =
      ((jsSplitSep arrowSeps t).map jsTrim).filter noteNamePatternTest) ∧
    (∀ (tree : MdastNode) (filePath : String) (start : Nat)
        (targetTypes : List BlockType),
      (detectPlainTextBlocks tree filePath start targetTypes).all heurBlockOk = true) := by
  refine ⟨fun t => rfl, fun t => rfl, fun tree filePath start targetTypes => ?_⟩
  rw [List.all_eq_true]
  intro b hb
  unfold detectPlainTextBlocks at hb
  have : ∀ (l : List PreDetected) (s : Nat),
      (∀ pb ∈ l, ∀ i, heurBlockOk (pb.toBlock i) = true) →
      ∀ b ∈ emitFrom s (l.map PreDetected.toBlock), heurBlockOk b = true := by
    intro l
    induction l with
    | nil => intro s _ b hb; simp [emitFrom] at hb
    | cons pb pbs ih =>
      intro s hOk b hb
      simp only [List.map_cons, emitFrom, List.mem_cons] at hb
      rcases hb with hb | hb
      · subst hb
        exact hOk pb (List.mem_cons_self _ _) s
      · exact ih (s + 1) (fun q hq j => hOk q (List.mem_cons_of_mem pb hq) j) b hb
  exact this _ start (detectPre_sound tree filePath targetTypes) b hb
